import Mathlib

/-!
Shallow embedding of the CSCI235 Project 4 virtual-bistro kitchen
(`Appetizer.cpp`, `MainCourse.cpp`, `Dessert.cpp`, `Kitchen.cpp`) and
proofs about its specification.  C++ `int` is modelled as `Int`,
`double` as `Rat` (every arithmetic step performed by the program on
the inputs considered stays exactly representable), `std::string` as
`String`, `std::vector` as `List`.  The base class `Dish` and the
container `ArrayBag` ship with the course and are not part of the
repository's sources; the parts of their behaviour that matter here
are modelled from the spec and marked as such.
-/

namespace Bistro

/-- Cuisine types of `Dish::CuisineType` (spec section 3). -/
inductive CuisineType
  | ITALIAN | MEXICAN | CHINESE | INDIAN | AMERICAN | FRENCH | OTHER
deriving DecidableEq, Repr, Inhabited

/-- Serving styles of `Appetizer::ServingStyle`. -/
inductive ServingStyle
  | PLATED | FAMILY_STYLE | BUFFET
deriving DecidableEq, Repr, Inhabited

/-- Cooking methods of `MainCourse::CookingMethod`. -/
inductive CookingMethod
  | GRILLED | BAKED | BOILED | FRIED | STEAMED | RAW
deriving DecidableEq, Repr, Inhabited

/-- Flavor profiles of `Dessert::FlavorProfile`. -/
inductive FlavorProfile
  | SWEET | BITTER | SOUR | SALTY | UMAMI
deriving DecidableEq, Repr, Inhabited

/-- Side-dish categories of `MainCourse::Category`. -/
inductive Category
  | GRAIN | PASTA | LEGUME | BREAD | SALAD | SOUP | STARCHES | VEGETABLE
deriving DecidableEq, Repr, Inhabited

/-- Side dish struct of `MainCourse::SideDish`. -/
structure SideDish where
  name : String
  category : Category
deriving DecidableEq, Repr, Inhabited

/-- The `Dish::DietaryRequest` structure: six independent boolean flags. -/
structure DietaryRequest where
  vegetarian : Bool
  vegan : Bool
  gluten_free : Bool
  nut_free : Bool
  low_sodium : Bool
  low_sugar : Bool
deriving DecidableEq, Repr, Inhabited

/-- Variant-specific payload of the three dish subclasses. -/
inductive DishVariant
  | appetizer (serving_style : ServingStyle) (spiciness_level : Int) (vegetarian : Bool)
  | maincourse (cooking_method : CookingMethod) (protein_type : String)
      (side_dishes : List SideDish) (gluten_free : Bool)
  | dessert (flavor_profile : FlavorProfile) (sweetness_level : Int) (contains_nuts : Bool)
deriving DecidableEq, Repr, Inhabited

/-- A dish: the common fields of the base class `Dish` (name, ingredients,
preparation time, price, cuisine type) plus the variant payload. -/
structure Dish where
  name : String
  ingredients : List String
  prep_time : Int
  price : Rat
  cuisine_type : CuisineType
  variant : DishVariant
deriving DecidableEq, Repr, Inhabited

/-- Non-vegetarian ingredient tokens of `Appetizer.cpp:171` / `MainCourse.cpp:250`. -/
def nonVegIngredients : List String :=
  ["Meat", "Chicken", "Fish", "Beef", "Pork", "Lamb", "Shrimp", "Bacon"]

/-- Gluten-containing ingredient tokens of `Appetizer.cpp:218`. -/
def glutenIngredients : List String :=
  ["Wheat", "Flour", "Bread", "Pasta", "Barley", "Rye", "Oats", "Crust"]

/-- Nut ingredient tokens of `Dessert.cpp:166`. -/
def nutsIngredients : List String :=
  ["Almonds", "Walnuts", "Pecans", "Hazelnuts", "Peanuts", "Cashews", "Pistachios"]

/-- Dairy and egg ingredient tokens of `Dessert.cpp:199` / `MainCourse.cpp:288`. -/
def dairyEggIngredients : List String :=
  ["Milk", "Eggs", "Cheese", "Butter", "Cream", "Yogurt"]

/-- Gluten-containing side-dish categories of `MainCourse.cpp:313`. -/
def glutenSideDishCategories : List Category :=
  [Category.GRAIN, Category.PASTA, Category.BREAD, Category.STARCHES]

/-- Embedding of the vegetarian substitution double loop of
`Appetizer.cpp:174-196` and the identical loop of `MainCourse.cpp:253-275`.
The outer loop index is `i`; the inner loop over the eight (pairwise
distinct) tokens reduces to a membership test because an element equals at
most one token.  On a match the source either substitutes in place and the
inner loop keeps scanning the substituted value (`"Beans"`/`"Mushrooms"`,
which match no token, so nothing further happens and the outer loop moves
to `i+1`), or erases at `i` and decrements `i` (so the outer `i++` lands on
the same `i` again; the remaining inner iterations then compare the element
at `i-1`, which was already fully processed and therefore matches no token,
so they are a no-op — an erase only happens with two substitutions already
in place at indices below `i`, hence `i ≥ 2 > 0` and the C++ `size_t`
decrement never wraps here). -/
def vegScan (ing : List String) (i : Nat) (substitution_count : Nat) : List String :=
  if h : i < ing.length then
    if ing.get ⟨i, h⟩ ∈ nonVegIngredients then
      if substitution_count = 0 then
        vegScan (ing.set i "Beans") (i + 1) 1
      else if substitution_count = 1 then
        vegScan (ing.set i "Mushrooms") (i + 1) 2
      else
        vegScan (ing.eraseIdx i) i (substitution_count + 1)
    else
      vegScan ing (i + 1) substitution_count
  else ing
termination_by ing.length - i
decreasing_by
  · simp only [List.length_set]; omega
  · simp only [List.length_set]; omega
  · simp only [List.length_eraseIdx, h, if_true]; omega
  · omega

/-- Embedding of the removal-only double loops (gluten removal
`Appetizer.cpp:219-229`, nut removal `Dessert.cpp:167-177`, dairy/egg
removal `Dessert.cpp:200-210` and `MainCourse.cpp:289-299`).  As in
`vegScan`, the inner loop reduces to membership and an erase revisits the
same index.  (When the erased element sits at index 0 the C++ `size_t`
decrement wraps and the remaining inner iterations index out of bounds;
the model uses the intended semantics of continuing at index 0, which is
the behaviour whenever those stray comparisons match nothing.) -/
def eraseScan (bad : List String) (ing : List String) (i : Nat) : List String :=
  if h : i < ing.length then
    if ing.get ⟨i, h⟩ ∈ bad then
      eraseScan bad (ing.eraseIdx i) i
    else
      eraseScan bad ing (i + 1)
  else ing
termination_by ing.length - i
decreasing_by
  · simp only [List.length_eraseIdx, h, if_true]; omega
  · omega

/-- Embedding of the side-dish removal double loop of `MainCourse.cpp:314-324`,
structured exactly like `eraseScan` but matching on the side dish's category. -/
def sideDishEraseScan (badCats : List Category) (sd : List SideDish) (i : Nat) :
    List SideDish :=
  if h : i < sd.length then
    if (sd.get ⟨i, h⟩).category ∈ badCats then
      sideDishEraseScan badCats (sd.eraseIdx i) i
    else
      sideDishEraseScan badCats sd (i + 1)
  else sd
termination_by sd.length - i
decreasing_by
  · simp only [List.length_eraseIdx, h, if_true]; omega
  · omega

/-- Embedding of `Appetizer::dietaryAccommodations` (`Appetizer.cpp:155-232`),
`MainCourse::dietaryAccommodations` (`MainCourse.cpp:235-327`) and
`Dessert::dietaryAccommodations` (`Dessert.cpp:155-213`), dispatched on the
variant as the virtual call does.  Handler order follows each source file. -/
def dietaryAccommodations (request : DietaryRequest) (d : Dish) : Dish :=
  match d.variant with
  | .appetizer serving_style spiciness_level vegetarian =>
      let veg1 := if request.vegetarian then true else vegetarian
      let ing1 := if request.vegetarian then vegScan d.ingredients 0 0 else d.ingredients
      let spice1 :=
        if request.low_sodium then
          (if spiciness_level - 2 < 0 then 0 else spiciness_level - 2)
        else spiciness_level
      let ing2 := if request.gluten_free then eraseScan glutenIngredients ing1 0 else ing1
      { d with ingredients := ing2,
               variant := .appetizer serving_style spice1 veg1 }
  | .maincourse cooking_method protein_type side_dishes gf =>
      let prot1 := if request.vegetarian then "Tofu" else protein_type
      let ing1 := if request.vegetarian then vegScan d.ingredients 0 0 else d.ingredients
      let prot2 := if request.vegan then "Tofu" else prot1
      let ing2 := if request.vegan then eraseScan dairyEggIngredients ing1 0 else ing1
      let gf2 := if request.gluten_free then true else gf
      let sd2 :=
        if request.gluten_free then sideDishEraseScan glutenSideDishCategories side_dishes 0
        else side_dishes
      { d with ingredients := ing2,
               variant := .maincourse cooking_method prot2 sd2 gf2 }
  | .dessert flavor_profile sweetness_level contains_nuts =>
      let nuts1 := if request.nut_free then false else contains_nuts
      let ing1 := if request.nut_free then eraseScan nutsIngredients d.ingredients 0
                  else d.ingredients
      let sweet1 :=
        if request.low_sugar then
          (if sweetness_level - 3 < 0 then 0 else sweetness_level - 3)
        else sweetness_level
      let ing2 := if request.vegan then eraseScan dairyEggIngredients ing1 0 else ing1
      { d with ingredients := ing2,
               variant := .dessert flavor_profile sweet1 nuts1 }

/-- Modelled from the spec: the substitution ordinal policy as the spec words
it — one left-to-right scan with a single running substitution counter over
the non-vegetarian set, first match replaced by `"Beans"`, second by
`"Mushrooms"`, every later match deleted.  Used only to compare against the
source-derived `vegScan`. -/
def vegSubSpec : List String → Nat → List String
  | [], _ => []
  | x :: xs, cnt =>
    if x ∈ nonVegIngredients then
      if cnt = 0 then "Beans" :: vegSubSpec xs 1
      else if cnt = 1 then "Mushrooms" :: vegSubSpec xs 2
      else vegSubSpec xs (cnt + 1)
    else x :: vegSubSpec xs cnt

/-- Embedding of the cuisine-type decode if-chain of `Kitchen.cpp:334-362`
(repeated verbatim at `Kitchen.cpp:466-494` and `Kitchen.cpp:558-586`). -/
def parseCuisineType (s : String) : CuisineType :=
  if s = "ITALIAN" then .ITALIAN
  else if s = "MEXICAN" then .MEXICAN
  else if s = "CHINESE" then .CHINESE
  else if s = "INDIAN" then .INDIAN
  else if s = "AMERICAN" then .AMERICAN
  else if s = "FRENCH" then .FRENCH
  else .OTHER

/-- Embedding of the serving-style decode if-chain of `Kitchen.cpp:365-381`. -/
def parseServingStyle (s : String) : ServingStyle :=
  if s = "PLATED" then .PLATED
  else if s = "FAMILY_STYLE" then .FAMILY_STYLE
  else if s = "BUFFET" then .BUFFET
  else .PLATED

/-- Embedding of the cooking-method decode if-chain of `Kitchen.cpp:497-525`. -/
def parseCookingMethod (s : String) : CookingMethod :=
  if s = "GRILLED" then .GRILLED
  else if s = "BAKED" then .BAKED
  else if s = "BOILED" then .BOILED
  else if s = "FRIED" then .FRIED
  else if s = "STEAMED" then .STEAMED
  else if s = "RAW" then .RAW
  else .GRILLED

/-- Embedding of the flavor-profile decode if-chain of `Kitchen.cpp:589-613`. -/
def parseFlavorProfile (s : String) : FlavorProfile :=
  if s = "SWEET" then .SWEET
  else if s = "BITTER" then .BITTER
  else if s = "SOUR" then .SOUR
  else if s = "SALTY" then .SALTY
  else if s = "UMAMI" then .UMAMI
  else .SWEET

/-- Embedding of the side-dish category decode if-chain of `Kitchen.cpp:426-461`. -/
def parseCategory (s : String) : Category :=
  if s = "GRAIN" then .GRAIN
  else if s = "PASTA" then .PASTA
  else if s = "LEGUME" then .LEGUME
  else if s = "BREAD" then .BREAD
  else if s = "SALAD" then .SALAD
  else if s = "SOUP" then .SOUP
  else if s = "STARCHES" then .STARCHES
  else if s = "VEGETABLE" then .VEGETABLE
  else .GRAIN

/-- Modelled from the spec: the numeric value of each `FlavorProfile`
enumerator (the enum declaration lives in the course-provided `Dessert.hpp`;
the spec fixes the mapping SWEET,BITTER,SOUR,SALTY,UMAMI to 0..4).
`Dessert::display` compares the enum against integer literals. -/
def FlavorProfile.val : FlavorProfile → Nat
  | .SWEET => 0
  | .BITTER => 1
  | .SOUR => 2
  | .SALTY => 3
  | .UMAMI => 4

/-- Embedding of the flavor-profile section of `Dessert::display`
(`Dessert.cpp:103-123`): the list of labels printed after the text
`"Flavor Profile: "`, one `if` per line of the source, including the
duplicated `== 2` test and the absent `== 4` test. -/
def dessertFlavorLabels (fp : FlavorProfile) : List String :=
  (if fp.val = 0 then ["Sweet"] else []) ++
  (if fp.val = 1 then ["Bitter"] else []) ++
  (if fp.val = 2 then ["Sour"] else []) ++
  (if fp.val = 2 then ["Salty"] else []) ++
  (if fp.val = 3 then ["Umami"] else [])

/-- Modelled from the spec: the documented display label of each flavor
profile (`Flavor Profile: Sweet|Bitter|Sour|Salty|Umami`). -/
def specFlavorLabel : FlavorProfile → String
  | .SWEET => "Sweet"
  | .BITTER => "Bitter"
  | .SOUR => "Sour"
  | .SALTY => "Salty"
  | .UMAMI => "Umami"

/-- Rounding as performed by C++ `round` on the (here exactly representable)
values involved: round half away from zero. -/
def cppRound (q : Rat) : Int :=
  if 0 ≤ q then ⌊q + 1 / 2⌋ else ⌈q - 1 / 2⌉

/-- The kitchen state.  `Kitchen` stores `Dish*` in an `ArrayBag`; pointers
are modelled as natural numbers, the pointed-to dishes by the function
`heap`, and the bag by its fixed backing array `arr` together with the live
count `item_count` (`ArrayBag::item_count_`): the live entries are the first
`item_count` slots, later slots are stale leftovers exactly as in the C++
array.  `next` is the allocation counter supplying fresh pointers. -/
structure Kitchen where
  heap : Nat → Dish
  arr : List Nat
  item_count : Nat
  total_prep_time : Int
  count_elaborate : Int
  next : Nat

/-- The pointers currently held by the bag, in slot order. -/
def Kitchen.held (k : Kitchen) : List Nat := k.arr.take k.item_count

/-- `ArrayBag::getCurrentSize`. -/
def Kitchen.getCurrentSize (k : Kitchen) : Nat := k.item_count

/-- The elaborate-dish test exactly as written inline in `Kitchen.cpp:48`
and `Kitchen.cpp:72`: at least 5 ingredients and at least 60 minutes. -/
def elaborate (d : Dish) : Bool :=
  decide (5 ≤ d.ingredients.length) && decide (60 ≤ d.prep_time)

/-- Write into the backing array at slot `i`: overwrite the slot when it
exists and extend the array when writing one past the end (the C++ array is
preallocated; list extension stands in for touching a fresh slot). -/
def arrWrite (a : List Nat) (i : Nat) (p : Nat) : List Nat :=
  if i < a.length then a.set i p else a ++ [p]

/-- Modelled from the spec: `ArrayBag::add` for the equality-based bag the
spec describes (an unordered collection whose `add` "may reject past
capacity" and which, per `Kitchen::newOrder`'s contract, adds a dish only
if it "is not already in the kitchen").  Rejects a pointer already live,
rejects at the fixed capacity of 200, otherwise appends at the first free
slot and increments the count. -/
def bagAdd (k : Kitchen) (p : Nat) : Kitchen × Bool :=
  if p ∈ k.held then (k, false)
  else if 200 ≤ k.item_count then (k, false)
  else ({ k with arr := arrWrite k.arr k.item_count p,
                 item_count := k.item_count + 1 }, true)

/-- Modelled from the spec: `ArrayBag::getIndexOf` — the index of the first
live entry equal to the target, if any (the bag locates the "one equal
match" its remove deletes by a linear scan). -/
def getIndexOf (l : List Nat) (p : Nat) : Option Nat :=
  match l with
  | [] => none
  | q :: rest => if q = p then some 0 else (getIndexOf rest p).map (· + 1)

/-- Modelled from the spec: `ArrayBag::remove` — "remove-by-value (removes
one equal match)" on an unordered bag: the first live slot equal to the
argument is overwritten with the last live entry and the count is
decremented (the classic array-bag removal; no ordering guarantee is
given, so moving the last entry into the hole is contract-conformant). -/
def bagRemove (k : Kitchen) (p : Nat) : Kitchen × Bool :=
  match getIndexOf k.held p with
  | none => (k, false)
  | some fi =>
      ({ k with arr := k.arr.set fi (k.arr.getD (k.item_count - 1) 0),
                item_count := k.item_count - 1 }, true)

/-- Embedding of `Kitchen::newOrder` (`Kitchen.cpp:41-56`) combined with the
allocation of the dish that in C++ happens before the call: a fresh pointer
is bound to `d`, then `add` is attempted; on success the preparation-time
total grows by the dish's prep time and the elaborate counter is bumped
when the dish has at least 5 ingredients and at least 60 minutes. -/
def Kitchen.newOrder (k : Kitchen) (d : Dish) : Kitchen × Bool :=
  let p := k.next
  let k0 : Kitchen := { k with heap := fun q => if q = p then d else k.heap q,
                               next := k.next + 1 }
  match bagAdd k0 p with
  | (k1, true) =>
      let k2 : Kitchen := { k1 with total_prep_time := k1.total_prep_time + d.prep_time }
      if elaborate d then
        ({ k2 with count_elaborate := k2.count_elaborate + 1 }, true)
      else (k2, true)
  | (k1, false) => (k1, false)

/-- Embedding of `Kitchen::serveDish` (`Kitchen.cpp:63-79`): returns false on
an empty kitchen, otherwise attempts removal; on success subtracts the
argument dish's prep time and decrements the elaborate counter when the
argument dish is elaborate. -/
def Kitchen.serveDish (k : Kitchen) (p : Nat) : Kitchen × Bool :=
  if k.getCurrentSize = 0 then (k, false)
  else
    match bagRemove k p with
    | (k1, true) =>
        let d := k.heap p
        let k2 : Kitchen := { k1 with total_prep_time := k1.total_prep_time - d.prep_time }
        if elaborate d then
          ({ k2 with count_elaborate := k2.count_elaborate - 1 }, true)
        else (k2, true)
    | (k1, false) => (k1, false)

/-- Embedding of `Kitchen::getPrepTimeSum` (`Kitchen.cpp:85-92`). -/
def Kitchen.getPrepTimeSum (k : Kitchen) : Int :=
  if k.getCurrentSize = 0 then 0 else k.total_prep_time

/-- Embedding of `Kitchen::elaborateDishCount` (`Kitchen.cpp:120-127`). -/
def Kitchen.elaborateDishCount (k : Kitchen) : Int :=
  if k.getCurrentSize = 0 ∨ k.count_elaborate = 0 then 0 else k.count_elaborate

/-- Embedding of `Kitchen::calculateAvgPrepTime` (`Kitchen.cpp:100-115`): a
running total accumulated over the live dishes, divided by the size,
rounded to the nearest integer by `round`. -/
def Kitchen.calculateAvgPrepTime (k : Kitchen) : Int :=
  if k.getCurrentSize = 0 then 0
  else
    cppRound ((k.held.foldl (fun acc p => acc + ((k.heap p).prep_time : Rat)) 0)
      / (k.getCurrentSize : Rat))

/-- Embedding of `Kitchen::calculateElaboratePercentage` (`Kitchen.cpp:135-159`). -/
def Kitchen.calculateElaboratePercentage (k : Kitchen) : Rat :=
  if k.getCurrentSize = 0 ∨ k.count_elaborate = 0 then 0
  else
    ((cppRound ((k.count_elaborate : Rat) / (k.getCurrentSize : Rat) * 10000) : Rat)) / 100

/-- Sequential pass of `Kitchen::dietaryAdjustment`'s loop body over the held
pointers: each pointed-to dish is replaced by its accommodated version. -/
def adjustHeap (request : DietaryRequest) : (Nat → Dish) → List Nat → (Nat → Dish)
  | heap, [] => heap
  | heap, p :: ps =>
      adjustHeap request
        (fun q => if q = p then dietaryAccommodations request (heap p) else heap q) ps

/-- Embedding of `Kitchen::dietaryAdjustment` (`Kitchen.cpp:633-639`): calls
`dietaryAccommodations` on every held dish, in slot order, in place. -/
def Kitchen.dietaryAdjustment (k : Kitchen) (request : DietaryRequest) : Kitchen :=
  { k with heap := adjustHeap request k.heap k.held }

/-- The loop of `Kitchen::releaseDishesBelowPrepTime` (`Kitchen.cpp:196-203`):
`num` is the size frozen at entry, `i` the loop index, `count` the running
count.  Note the source increments `count` before calling `serveDish` and
ignores `serveDish`'s return value. -/
def releaseLoop (k : Kitchen) (prep_time : Int) (num i count : Nat) : Kitchen × Nat :=
  if i < num then
    let p := k.arr.getD i 0
    if (k.heap p).prep_time < prep_time then
      releaseLoop (k.serveDish p).1 prep_time num (i + 1) (count + 1)
    else
      releaseLoop k prep_time num (i + 1) count
  else (k, count)
termination_by num - i

/-- Embedding of `Kitchen::releaseDishesBelowPrepTime` (`Kitchen.cpp:192-205`). -/
def Kitchen.releaseDishesBelowPrepTime (k : Kitchen) (prep_time : Int) : Kitchen × Nat :=
  releaseLoop k prep_time k.getCurrentSize 0 0

/-- Sum of prep times of the dishes at the given pointers. -/
def sumPrepOf (heap : Nat → Dish) (l : List Nat) : Int :=
  (l.map (fun p => (heap p).prep_time)).sum

/-- Number of the given pointers whose dish is elaborate. -/
def countElabOf (heap : Nat → Dish) (l : List Nat) : Nat :=
  (l.filter (fun p => elaborate (heap p))).length

/-- Recomputation from scratch of the preparation-time total: the sum of
prep times over the currently held dishes. -/
def Kitchen.sumPrepScratch (k : Kitchen) : Int := sumPrepOf k.heap k.held

/-- Recomputation from scratch of the elaborate count: the number of held
dishes with at least 5 ingredients and at least 60 minutes prep time. -/
def Kitchen.countElaborateScratch (k : Kitchen) : Nat := countElabOf k.heap k.held

/-- The kitchen constructed by `Kitchen::Kitchen()` (`Kitchen.cpp:29-31`):
empty bag, zero totals. -/
def Kitchen.empty : Kitchen :=
  { heap := fun _ => default, arr := [], item_count := 0,
    total_prep_time := 0, count_elaborate := 0, next := 0 }

/-- One public mutating operation on a kitchen. -/
inductive KOp
  | order (d : Dish)
  | serve (p : Nat)
  | adjust (request : DietaryRequest)
  | release (prep_time : Int)

/-- Apply one operation (dropping the returned status). -/
def Kitchen.step (k : Kitchen) : KOp → Kitchen
  | .order d => (k.newOrder d).1
  | .serve p => (k.serveDish p).1
  | .adjust request => k.dietaryAdjustment request
  | .release t => (k.releaseDishesBelowPrepTime t).1

/-- Apply a sequence of operations. -/
def Kitchen.run (k : Kitchen) (ops : List KOp) : Kitchen := ops.foldl Kitchen.step k

/-- An operation is a `newOrder` or a `serveDish` call. -/
def KOp.isOrderServe : KOp → Prop
  | .order _ => True
  | .serve _ => True
  | .adjust _ => False
  | .release _ => False

/-- Structural well-formedness of a kitchen state: the live count fits the
backing array, live pointers are pairwise distinct, and live pointers are
below the allocation counter. -/
def Kitchen.WFcore (k : Kitchen) : Prop :=
  k.item_count ≤ k.arr.length ∧ k.held.Nodup ∧ ∀ p ∈ k.held, p < k.next

/-- The cached prep-time total agrees with recomputation from scratch. -/
def Kitchen.PrepInv (k : Kitchen) : Prop := k.total_prep_time = k.sumPrepScratch

/-- The cached elaborate counter agrees with recomputation from scratch. -/
def Kitchen.ElabInv (k : Kitchen) : Prop :=
  k.count_elaborate = (k.countElaborateScratch : Int)

/-- Concrete fixture: a dietary request with only the vegetarian flag set. -/
def reqVeg : DietaryRequest :=
  { vegetarian := true, vegan := false, gluten_free := false,
    nut_free := false, low_sodium := false, low_sugar := false }

/-- Concrete fixture: a dietary request with only the gluten-free flag set. -/
def reqGF : DietaryRequest :=
  { vegetarian := false, vegan := false, gluten_free := true,
    nut_free := false, low_sodium := false, low_sugar := false }

/-- Concrete fixture: a dietary request with the low-sodium and low-sugar
flags set. -/
def reqLow : DietaryRequest :=
  { vegetarian := false, vegan := false, gluten_free := false,
    nut_free := false, low_sodium := true, low_sugar := true }

/-- Concrete fixture: an appetizer whose ingredients exercise the
substitution example. -/
def fixAp : Dish :=
  { name := "Springrolls", ingredients := ["Chicken", "Rice", "Beef", "Fish"],
    prep_time := 30, price := 6, cuisine_type := .CHINESE,
    variant := .appetizer .PLATED 1 false }

/-- Concrete fixture: a main course. -/
def fixMc : Dish :=
  { name := "Roast", ingredients := ["Chicken", "Rice", "Beef", "Fish"],
    prep_time := 90, price := 18, cuisine_type := .FRENCH,
    variant := .maincourse .GRILLED "Chicken" [{ name := "Baguette", category := .BREAD }] false }

/-- Concrete fixture: a dessert. -/
def fixDe : Dish :=
  { name := "Cake", ingredients := ["Flour", "Eggs", "Almonds"],
    prep_time := 45, price := 7, cuisine_type := .OTHER,
    variant := .dessert .SWEET 2 true }

/-- Concrete fixture: an elaborate appetizer (5 ingredients, 60 minutes)
containing one gluten ingredient. -/
def fixApElab : Dish :=
  { name := "Platter", ingredients := ["Wheat", "Cheese", "Olives", "Ham", "Figs"],
    prep_time := 60, price := 12, cuisine_type := .ITALIAN,
    variant := .appetizer .BUFFET 0 false }

/-- Concrete fixture: a quick plain dish (2 ingredients, 10 minutes). -/
def fixQuick : Dish :=
  { name := "Toast", ingredients := ["Bread", "Butter"],
    prep_time := 10, price := 2, cuisine_type := .AMERICAN,
    variant := .appetizer .PLATED 0 true }

/-- Concrete fixture: a kitchen holding `fixApElab` and `fixQuick`. -/
def fixK : Kitchen :=
  ((Kitchen.empty.newOrder fixApElab).1.newOrder fixQuick).1

/-- Concrete fixture: a kitchen presenting 13 held dishes of which 7 are
elaborate, with caches set to the recomputed values. -/
def fixK13 : Kitchen :=
  { heap := fun p => if p < 7 then fixApElab else fixQuick,
    arr := [0, 1, 2, 3, 4, 5, 6, 7, 8, 9, 10, 11, 12],
    item_count := 13,
    total_prep_time := 7 * 60 + 6 * 10,
    count_elaborate := 7,
    next := 13 }

end Bistro

namespace Bistro

/-- Helper: `dietaryAccommodations` never changes the preparation time. -/
theorem dietary_prep_time_eq (request : DietaryRequest) (d : Dish) :
    (dietaryAccommodations request d).prep_time = d.prep_time := by
  unfold dietaryAccommodations
  cases d.variant <;> simp

/-- Helper: the element at the append boundary. -/
theorem get_append_cons (pre : List α) (x : α) (xs : List α)
    (h : pre.length < (pre ++ x :: xs).length) :
    (pre ++ x :: xs).get ⟨pre.length, h⟩ = x := by
  induction pre with
  | nil => rfl
  | cons a t ih => exact ih (by simp)

/-- Helper: setting at the append boundary. -/
theorem set_append_cons (pre : List α) (x y : α) (xs : List α) :
    (pre ++ x :: xs).set pre.length y = pre ++ y :: xs := by
  induction pre with
  | nil => rfl
  | cons a t ih =>
      simp only [List.cons_append, List.length_cons, List.set_cons_succ]
      rw [ih]

/-- Helper: erasing at the append boundary. -/
theorem eraseIdx_append_cons (pre : List α) (x : α) (xs : List α) :
    (pre ++ x :: xs).eraseIdx pre.length = pre ++ xs := by
  induction pre with
  | nil => rfl
  | cons a t ih =>
      simp only [List.cons_append, List.length_cons, List.eraseIdx_cons_succ]
      rw [ih]

/-- Helper: the index-juggling `vegScan` started at the append boundary
computes the structural scan on the suffix. -/
theorem vegScan_spec_aux (suf : List String) :
    ∀ (pre : List String) (cnt : Nat),
      vegScan (pre ++ suf) pre.length cnt = pre ++ vegSubSpec suf cnt := by
  induction suf with
  | nil =>
      intro pre cnt
      rw [vegScan]
      simp [vegSubSpec]
  | cons x xs ih =>
      intro pre cnt
      have hlt : pre.length < (pre ++ x :: xs).length := by simp
      rw [vegScan, dif_pos hlt, get_append_cons pre x xs hlt]
      by_cases hx : x ∈ nonVegIngredients
      · rw [if_pos hx]
        by_cases h0 : cnt = 0
        · rw [if_pos h0, set_append_cons]
          have hsplit : pre ++ "Beans" :: xs = (pre ++ ["Beans"]) ++ xs := by simp
          have hlen : pre.length + 1 = (pre ++ ["Beans"]).length := by simp
          rw [hsplit, hlen, ih]
          simp [vegSubSpec, hx, h0]
        · by_cases h1 : cnt = 1
          · rw [if_neg h0, if_pos h1, set_append_cons]
            have hsplit : pre ++ "Mushrooms" :: xs = (pre ++ ["Mushrooms"]) ++ xs := by simp
            have hlen : pre.length + 1 = (pre ++ ["Mushrooms"]).length := by simp
            rw [hsplit, hlen, ih]
            simp [vegSubSpec, hx, h0, h1]
          · rw [if_neg h0, if_neg h1, eraseIdx_append_cons, ih]
            simp [vegSubSpec, hx, h0, h1]
      · rw [if_neg hx]
        have hsplit : pre ++ x :: xs = (pre ++ [x]) ++ xs := by simp
        have hlen : pre.length + 1 = (pre ++ [x]).length := by simp
        rw [hsplit, hlen, ih]
        simp [vegSubSpec, hx]

/-- Helper: the source's substitution loop equals the spec's scan. -/
theorem vegScan_eq_spec (ing : List String) : vegScan ing 0 0 = vegSubSpec ing 0 := by
  have h := vegScan_spec_aux ing [] 0
  simpa using h

/-- C2: the claim says every `Dessert::display` prints exactly one Flavor
Profile label matching the dessert's flavor profile.  Evaluating the
embedded display logic at the failing inputs shows the duplicated `== 2`
test makes SOUR print two labels, SALTY print `"Umami"`, and UMAMI print
none, contradicting both the claim and the function's own documented
format. -/
theorem claim_C2_flavor_labels_bug :
    dessertFlavorLabels .SOUR = ["Sour", "Salty"] ∧
    dessertFlavorLabels .SALTY = ["Umami"] ∧
    dessertFlavorLabels .UMAMI = [] ∧
    dessertFlavorLabels .SWEET = [specFlavorLabel .SWEET] ∧
    dessertFlavorLabels .BITTER = [specFlavorLabel .BITTER] ∧
    dessertFlavorLabels .SOUR ≠ [specFlavorLabel .SOUR] := by
  decide

/-- C4: for an Appetizer or MainCourse receiving a vegetarian request (with
the later ingredient-touching flag of that variant off), the ingredient
list is transformed by the single left-to-right scan with one running
substitution counter — first match becomes `"Beans"`, second becomes
`"Mushrooms"`, later matches are deleted — and in particular
`["Chicken", "Rice", "Beef", "Fish"]` becomes `["Beans", "Rice", "Mushrooms"]`. -/
theorem claim_C4_substitution_policy :
    (∀ ing : List String, vegScan ing 0 0 = vegSubSpec ing 0) ∧
    (∀ (request : DietaryRequest) (d : Dish) ss sp v,
        request.vegetarian = true → request.gluten_free = false →
        d.variant = .appetizer ss sp v →
        (dietaryAccommodations request d).ingredients = vegSubSpec d.ingredients 0) ∧
    (∀ (request : DietaryRequest) (d : Dish) cm pt sd gf,
        request.vegetarian = true → request.vegan = false →
        d.variant = .maincourse cm pt sd gf →
        (dietaryAccommodations request d).ingredients = vegSubSpec d.ingredients 0) ∧
    vegSubSpec ["Chicken", "Rice", "Beef", "Fish"] 0 = ["Beans", "Rice", "Mushrooms"] := by
  refine ⟨vegScan_eq_spec, ?_, ?_, by decide⟩
  · intro request d ss sp v hveg hgf hv
    unfold dietaryAccommodations
    rw [hv]
    simp [hveg, hgf, vegScan_eq_spec]
  · intro request d cm pt sd gf hveg hvegan hv
    unfold dietaryAccommodations
    rw [hv]
    simp [hveg, hvegan, vegScan_eq_spec]

/-- C4 witness: the theorem applied to concrete dishes and the concrete
vegetarian-only request. -/
theorem claim_C4_substitution_policy_witness :
    (dietaryAccommodations reqVeg fixAp).ingredients = vegSubSpec fixAp.ingredients 0 ∧
    (dietaryAccommodations reqVeg fixMc).ingredients = vegSubSpec fixMc.ingredients 0 :=
  ⟨claim_C4_substitution_policy.2.1 reqVeg fixAp .PLATED 1 false rfl rfl rfl,
   claim_C4_substitution_policy.2.2.1 reqVeg fixMc .GRILLED "Chicken"
     [{ name := "Baguette", category := .BREAD }] false rfl rfl rfl⟩

/-- C8: a low-sodium request reduces an appetizer's spiciness level by 2
clamped at 0, and a low-sugar request reduces a dessert's sweetness level
by 3 clamped at 0; the result is never negative whatever the start. -/
theorem claim_C8_clamping (request : DietaryRequest) (d : Dish) :
    (∀ ss sp v, request.low_sodium = true → d.variant = .appetizer ss sp v →
      ∃ v2, (dietaryAccommodations request d).variant
            = .appetizer ss (max (sp - 2) 0) v2 ∧ 0 ≤ max (sp - 2) 0) ∧
    (∀ fp sw nuts, request.low_sugar = true → d.variant = .dessert fp sw nuts →
      ∃ n2, (dietaryAccommodations request d).variant
            = .dessert fp (max (sw - 3) 0) n2 ∧ 0 ≤ max (sw - 3) 0) := by
  constructor
  · intro ss sp v hls hv
    refine ⟨if request.vegetarian then true else v, ?_, le_max_right _ _⟩
    unfold dietaryAccommodations
    rw [hv]
    simp only [hls, if_true]
    simp
    split <;> omega
  · intro fp sw nuts hls hv
    refine ⟨if request.nut_free then false else nuts, ?_, le_max_right _ _⟩
    unfold dietaryAccommodations
    rw [hv]
    simp only [hls, if_true]
    simp
    split <;> omega

/-- C8 witness: the theorem applied to a concrete appetizer of spiciness 1
and a concrete dessert of sweetness 2 under the low-sodium/low-sugar
request. -/
theorem claim_C8_clamping_witness :
    (∃ v2, (dietaryAccommodations reqLow fixAp).variant
          = .appetizer .PLATED (max ((1 : Int) - 2) 0) v2 ∧ 0 ≤ max ((1 : Int) - 2) 0) ∧
    (∃ n2, (dietaryAccommodations reqLow fixDe).variant
          = .dessert .SWEET (max ((2 : Int) - 3) 0) n2 ∧ 0 ≤ max ((2 : Int) - 3) 0) :=
  ⟨(claim_C8_clamping reqLow fixAp).1 .PLATED 1 false rfl rfl,
   (claim_C8_clamping reqLow fixDe).2 .SWEET 2 true rfl rfl⟩

/-- C9: every enum token that matches none of the explicit comparisons of
the ingestion if-chains decodes to the documented default. -/
theorem claim_C9_enum_fallback (s : String) :
    (s ∉ ["ITALIAN", "MEXICAN", "CHINESE", "INDIAN", "AMERICAN", "FRENCH"] →
      parseCuisineType s = .OTHER) ∧
    (s ∉ ["PLATED", "FAMILY_STYLE", "BUFFET"] → parseServingStyle s = .PLATED) ∧
    (s ∉ ["GRILLED", "BAKED", "BOILED", "FRIED", "STEAMED", "RAW"] →
      parseCookingMethod s = .GRILLED) ∧
    (s ∉ ["SWEET", "BITTER", "SOUR", "SALTY", "UMAMI"] → parseFlavorProfile s = .SWEET) ∧
    (s ∉ ["GRAIN", "PASTA", "LEGUME", "BREAD", "SALAD", "SOUP", "STARCHES", "VEGETABLE"] →
      parseCategory s = .GRAIN) := by
  refine ⟨?_, ?_, ?_, ?_, ?_⟩ <;> intro h
  · unfold parseCuisineType
    split_ifs <;> first | rfl | (subst_vars; exact absurd (by decide) h)
  · unfold parseServingStyle
    split_ifs <;> first | rfl | (subst_vars; exact absurd (by decide) h)
  · unfold parseCookingMethod
    split_ifs <;> first | rfl | (subst_vars; exact absurd (by decide) h)
  · unfold parseFlavorProfile
    split_ifs <;> first | rfl | (subst_vars; exact absurd (by decide) h)
  · unfold parseCategory
    split_ifs <;> first | rfl | (subst_vars; exact absurd (by decide) h)

/-- C9 witness: the unrecognized token `"VEGAN"` decodes to every default. -/
theorem claim_C9_enum_fallback_witness :
    parseCuisineType "VEGAN" = .OTHER ∧ parseServingStyle "VEGAN" = .PLATED ∧
    parseCookingMethod "VEGAN" = .GRILLED ∧ parseFlavorProfile "VEGAN" = .SWEET ∧
    parseCategory "VEGAN" = .GRAIN :=
  ⟨(claim_C9_enum_fallback "VEGAN").1 (by decide),
   (claim_C9_enum_fallback "VEGAN").2.1 (by decide),
   (claim_C9_enum_fallback "VEGAN").2.2.1 (by decide),
   (claim_C9_enum_fallback "VEGAN").2.2.2.1 (by decide),
   (claim_C9_enum_fallback "VEGAN").2.2.2.2 (by decide)⟩

/-- C10: `dietaryAccommodations` leaves the dish's name, preparation time,
price and cuisine type unchanged for every variant and every request. -/
theorem claim_C10_frame (request : DietaryRequest) (d : Dish) :
    (dietaryAccommodations request d).name = d.name ∧
    (dietaryAccommodations request d).prep_time = d.prep_time ∧
    (dietaryAccommodations request d).price = d.price ∧
    (dietaryAccommodations request d).cuisine_type = d.cuisine_type := by
  unfold dietaryAccommodations
  cases d.variant <;> simp

/-- Helper: `getIndexOf` succeeds exactly on members. -/
theorem getIndexOf_isSome_of_mem {l : List Nat} {p : Nat} (h : p ∈ l) :
    ∃ fi, getIndexOf l p = some fi := by
  induction l with
  | nil => cases h
  | cons q rest ih =>
      by_cases hq : q = p
      · exact ⟨0, by simp [getIndexOf, hq]⟩
      · have hmem : p ∈ rest := by
          cases h with
          | head => exact absurd rfl hq
          | tail _ h2 => exact h2
        obtain ⟨fi, hfi⟩ := ih hmem
        exact ⟨fi + 1, by simp [getIndexOf, hq, hfi]⟩

/-- Helper: a found index is in bounds and holds the target. -/
theorem getIndexOf_spec {l : List Nat} {p fi : Nat} (h : getIndexOf l p = some fi) :
    fi < l.length ∧ l.getD fi 0 = p := by
  induction l generalizing fi with
  | nil => simp [getIndexOf] at h
  | cons q rest ih =>
      by_cases hq : q = p
      · simp [getIndexOf, hq] at h
        subst h
        simpa using hq
      · simp [getIndexOf, hq] at h
        obtain ⟨fj, hfj, rfl⟩ := h
        obtain ⟨h1, h2⟩ := ih hfj
        exact ⟨by simpa using h1, by simpa using h2⟩

/-- Helper: a found index is at most any index holding the target. -/
theorem getIndexOf_min {l : List Nat} {p fi : Nat} (h : getIndexOf l p = some fi) :
    ∀ j, j < l.length → l.getD j 0 = p → fi ≤ j := by
  induction l generalizing fi with
  | nil => simp [getIndexOf] at h
  | cons q rest ih =>
      intro j hj hjp
      by_cases hq : q = p
      · simp [getIndexOf, hq] at h
        omega
      · simp [getIndexOf, hq] at h
        obtain ⟨fj, hfj, rfl⟩ := h
        cases j with
        | zero => exact absurd hjp hq
        | succ j2 =>
            have := ih hfj j2 (by simpa using hj) (by simpa using hjp)
            omega

/-- Helper: a nonempty list is a permutation of its last element consed onto
its front part. -/
theorem perm_last_cons_take (B : List α) (d : α) (h : B ≠ []) :
    (B.getD (B.length - 1) d :: B.take (B.length - 1)).Perm B := by
  conv_rhs => rw [← List.dropLast_append_getLast h]
  rw [List.dropLast_eq_take]
  have hlast : B.getD (B.length - 1) d = B.getLast h := by
    rw [List.getLast_eq_getElem]
    rw [List.getD_eq_getElem]
  rw [hlast]
  exact (List.perm_append_singleton _ _).symm

/-- Helper: the classic array-bag removal — overwrite the removed slot with
the last entry and drop the last slot — is, up to permutation, erasure at
the removed slot. -/
theorem swap_remove_perm (A : List α) (d : α) :
    ∀ fi, fi < A.length →
      ((A.take (A.length - 1)).set fi (A.getD (A.length - 1) d)).Perm (A.eraseIdx fi) := by
  induction A with
  | nil => intro fi h; cases h
  | cons x B ih =>
      intro fi hfi
      cases fi with
      | zero =>
          cases B with
          | nil => simp
          | cons y rest =>
              simp only [List.length_cons, Nat.add_sub_cancel, List.take_succ_cons,
                List.set_cons_zero, List.eraseIdx_zero, List.eraseIdx_cons_zero]
              have hne : (y :: rest : List α) ≠ [] := by simp
              have := perm_last_cons_take (y :: rest) d hne
              simpa using this
      | succ j =>
          cases B with
          | nil => simp at hfi
          | cons y rest =>
              have hj : j < (y :: rest).length := by simpa using hfi
              have := ih j hj
              simp only [List.length_cons, Nat.add_sub_cancel, List.take_succ_cons,
                List.set_cons_succ, List.eraseIdx_cons_succ]
              exact List.Perm.cons x (by simpa using this)

/-- Helper: a list is a permutation of the element at any index consed onto
the erasure at that index. -/
theorem perm_getD_cons_eraseIdx (A : List α) (d : α) :
    ∀ fi, fi < A.length → A.Perm (A.getD fi d :: A.eraseIdx fi) := by
  induction A with
  | nil => intro fi h; cases h
  | cons x B ih =>
      intro fi hfi
      cases fi with
      | zero => simp
      | succ j =>
          have hj : j < B.length := by simpa using hfi
          have h2 := ih j hj
          simp only [List.getD_cons_succ, List.eraseIdx_cons_succ]
          exact (h2.cons x).trans (List.Perm.swap _ _ _)

/-- Helper: a failed `serveDish` leaves the kitchen untouched. -/
theorem serveDish_fail (k : Kitchen) (p : Nat) (h : (k.serveDish p).2 = false) :
    (k.serveDish p).1 = k := by
  unfold Kitchen.serveDish bagRemove at *
  by_cases h0 : k.getCurrentSize = 0
  · simp [h0]
  · simp only [h0, if_false] at *
    cases hidx : getIndexOf k.held p with
    | none => simp [hidx]
    | some fi =>
        rw [hidx] at h
        by_cases he : elaborate (k.heap p) <;> simp [he] at h

/-- Helper: field-by-field description of a successful `serveDish`. -/
theorem serveDish_succ (k : Kitchen) (p fi : Nat) (hidx : getIndexOf k.held p = some fi)
    (h0 : k.getCurrentSize ≠ 0) :
    (k.serveDish p).1.heap = k.heap ∧
    (k.serveDish p).1.arr = k.arr.set fi (k.arr.getD (k.item_count - 1) 0) ∧
    (k.serveDish p).1.item_count = k.item_count - 1 ∧
    (k.serveDish p).1.total_prep_time = k.total_prep_time - (k.heap p).prep_time ∧
    (k.serveDish p).1.count_elaborate
      = k.count_elaborate - (if elaborate (k.heap p) then 1 else 0) ∧
    (k.serveDish p).1.next = k.next ∧
    (k.serveDish p).2 = true := by
  unfold Kitchen.serveDish bagRemove
  rw [if_neg h0, hidx]
  by_cases he : elaborate (k.heap p) <;> simp [he]

/-- Helper: the held list of a successful `serveDish` is, up to permutation,
the old one with the found slot erased. -/
theorem serveDish_held_perm (k : Kitchen) (p fi : Nat)
    (hc : k.item_count ≤ k.arr.length)
    (hidx : getIndexOf k.held p = some fi) (h0 : k.getCurrentSize ≠ 0) :
    (k.serveDish p).1.held.Perm (k.held.eraseIdx fi) := by
  obtain ⟨_, harr, hcnt, _, _, _, _⟩ := serveDish_succ k p fi hidx h0
  have hheldlen : k.held.length = k.item_count := by
    simp only [Kitchen.held, List.length_take]
    omega
  have hfi : fi < k.item_count := by
    have := (getIndexOf_spec hidx).1
    omega
  have htk : k.arr.take (k.item_count - 1) = k.held.take (k.item_count - 1) := by
    show _ = (k.arr.take k.item_count).take (k.item_count - 1)
    rw [List.take_take]
    congr 1
    omega
  have hgd : k.arr.getD (k.item_count - 1) 0 = k.held.getD (k.item_count - 1) 0 := by
    show _ = (k.arr.take k.item_count).getD (k.item_count - 1) 0
    rw [List.getD_eq_getElem?_getD, List.getD_eq_getElem?_getD, List.getElem?_take]
    rw [if_pos (by omega : k.item_count - 1 < k.item_count)]
  show (k.serveDish p).1.arr.take (k.serveDish p).1.item_count |>.Perm _
  rw [harr, hcnt, List.set_take, htk, hgd]
  have h := swap_remove_perm k.held 0 fi (by omega)
  rw [hheldlen] at h
  exact h

/-- Helper: `bagAdd` rejects a pointer already held. -/
theorem bagAdd_mem (k : Kitchen) (p : Nat) (hm : p ∈ k.held) : bagAdd k p = (k, false) := by
  unfold bagAdd
  rw [if_pos hm]

/-- Helper: `bagAdd` rejects at capacity. -/
theorem bagAdd_cap (k : Kitchen) (p : Nat) (hcap : 200 ≤ k.item_count) :
    bagAdd k p = (k, false) := by
  unfold bagAdd
  split_ifs <;> rfl

/-- Helper: `bagAdd` appends a fresh pointer below capacity. -/
theorem bagAdd_succ (k : Kitchen) (p : Nat) (hnm : p ∉ k.held) (hcap : k.item_count < 200) :
    bagAdd k p
      = ({ k with arr := arrWrite k.arr k.item_count p,
                  item_count := k.item_count + 1 }, true) := by
  unfold bagAdd
  rw [if_neg hnm, if_neg (by omega : ¬ (200 ≤ k.item_count))]

/-- Helper: a `newOrder` whose `add` is rejected returns the kitchen with
only the allocation recorded. -/
theorem newOrder_not_add (k : Kitchen) (d : Dish)
    (hfail : k.next ∈ k.held ∨ 200 ≤ k.item_count) :
    k.newOrder d
      = ({ k with heap := fun q => if q = k.next then d else k.heap q,
                  next := k.next + 1 }, false) := by
  unfold Kitchen.newOrder
  dsimp only
  rcases hfail with hm | hc
  · rw [bagAdd_mem _ _ (by simpa [Kitchen.held] using hm)]
  · rw [bagAdd_cap _ _ (by simpa using hc)]

/-- Helper: field-by-field description of a successful `newOrder`. -/
theorem newOrder_succ (k : Kitchen) (d : Dish)
    (hnotmem : k.next ∉ k.held) (hcap : k.item_count < 200) :
    (k.newOrder d).2 = true ∧
    (k.newOrder d).1.arr = arrWrite k.arr k.item_count k.next ∧
    (k.newOrder d).1.item_count = k.item_count + 1 ∧
    (k.newOrder d).1.total_prep_time = k.total_prep_time + d.prep_time ∧
    (k.newOrder d).1.count_elaborate = k.count_elaborate + (if elaborate d then 1 else 0) ∧
    (k.newOrder d).1.heap = (fun q => if q = k.next then d else k.heap q) ∧
    (k.newOrder d).1.next = k.next + 1 := by
  unfold Kitchen.newOrder
  dsimp only
  rw [bagAdd_succ _ _ (by simpa [Kitchen.held] using hnotmem) (by simpa using hcap)]
  by_cases he : elaborate d <;> simp [he]

/-- Helper: writing one past the live region appends to the live prefix. -/
theorem arrWrite_take (a : List Nat) (i p : Nat) (h : i ≤ a.length) :
    (arrWrite a i p).take (i + 1) = a.take i ++ [p] := by
  unfold arrWrite
  by_cases hlt : i < a.length
  · rw [if_pos hlt, List.take_succ, List.set_take]
    have h1 : (a.take i).set i p = a.take i := by
      apply List.set_eq_of_length_le
      simp
    have h2 : (a.set i p)[i]? = some p := by
      rw [List.getElem?_set_self]
      · omega
    rw [h1, h2]
    rfl
  · have hi : i = a.length := by omega
    subst hi
    rw [if_neg hlt, List.take_of_length_le (by simp), List.take_length]

/-- Helper: the write keeps the array long enough. -/
theorem arrWrite_length (a : List Nat) (i p : Nat) (h : i ≤ a.length) :
    i + 1 ≤ (arrWrite a i p).length := by
  unfold arrWrite
  split <;> simp <;> omega

/-- Helper: a successful `serveDish` passed a nonempty kitchen found an index. -/
theorem serveDish_succ_inv (k : Kitchen) (p : Nat) (h : (k.serveDish p).2 = true) :
    k.getCurrentSize ≠ 0 ∧ ∃ fi, getIndexOf k.held p = some fi := by
  unfold Kitchen.serveDish bagRemove at h
  by_cases h0 : k.getCurrentSize = 0
  · simp [h0] at h
  · refine ⟨h0, ?_⟩
    rw [if_neg h0] at h
    cases hidx : getIndexOf k.held p with
    | none => rw [hidx] at h; simp at h
    | some fi => exact ⟨fi, rfl⟩

/-- Helper: `sumPrepOf` respects permutation. -/
theorem sumPrepOf_perm (heap : Nat → Dish) {l1 l2 : List Nat} (h : l1.Perm l2) :
    sumPrepOf heap l1 = sumPrepOf heap l2 :=
  (h.map _).sum_eq

/-- Helper: `countElabOf` respects permutation. -/
theorem countElabOf_perm (heap : Nat → Dish) {l1 l2 : List Nat} (h : l1.Perm l2) :
    countElabOf heap l1 = countElabOf heap l2 :=
  (h.filter _).length_eq

/-- Helper: `sumPrepOf` over a cons. -/
theorem sumPrepOf_cons (heap : Nat → Dish) (p : Nat) (l : List Nat) :
    sumPrepOf heap (p :: l) = (heap p).prep_time + sumPrepOf heap l := by
  simp [sumPrepOf]

/-- Helper: `countElabOf` over a cons. -/
theorem countElabOf_cons (heap : Nat → Dish) (p : Nat) (l : List Nat) :
    countElabOf heap (p :: l) = (if elaborate (heap p) then 1 else 0) + countElabOf heap l := by
  by_cases he : elaborate (heap p)
  · simp [countElabOf, List.filter_cons, he]
    omega
  · simp [countElabOf, List.filter_cons, he]

/-- Helper: `sumPrepOf` over an append. -/
theorem sumPrepOf_append (heap : Nat → Dish) (l1 l2 : List Nat) :
    sumPrepOf heap (l1 ++ l2) = sumPrepOf heap l1 + sumPrepOf heap l2 := by
  simp [sumPrepOf]

/-- Helper: `countElabOf` over an append. -/
theorem countElabOf_append (heap : Nat → Dish) (l1 l2 : List Nat) :
    countElabOf heap (l1 ++ l2) = countElabOf heap l1 + countElabOf heap l2 := by
  simp [countElabOf]

/-- Helper: `sumPrepOf` only reads the prep times at the listed pointers. -/
theorem sumPrepOf_congr {h1 h2 : Nat → Dish} {l : List Nat}
    (h : ∀ p ∈ l, (h1 p).prep_time = (h2 p).prep_time) :
    sumPrepOf h1 l = sumPrepOf h2 l := by
  unfold sumPrepOf
  rw [List.map_congr_left h]

/-- Helper: `countElabOf` only reads the dishes at the listed pointers. -/
theorem countElabOf_congr {h1 h2 : Nat → Dish} {l : List Nat}
    (h : ∀ p ∈ l, h1 p = h2 p) :
    countElabOf h1 l = countElabOf h2 l := by
  unfold countElabOf
  rw [List.filter_congr (fun p hp => by rw [h p hp])]

/-- Helper: `newOrder` preserves well-formedness and both cache invariants. -/
theorem newOrder_preserves (k : Kitchen) (d : Dish) (hwf : k.WFcore) :
    (k.newOrder d).1.WFcore ∧
    (k.PrepInv → (k.newOrder d).1.PrepInv) ∧
    (k.ElabInv → (k.newOrder d).1.ElabInv) := by
  obtain ⟨hc, hnd, hb⟩ := hwf
  by_cases hcap : k.item_count < 200
  · have hnm : k.next ∉ k.held := fun hm => by have := hb _ hm; omega
    obtain ⟨hsnd, harr, hcnt, htot, hce, hheap, hnext⟩ := newOrder_succ k d hnm hcap
    have hheld : (k.newOrder d).1.held = k.held ++ [k.next] := by
      show (k.newOrder d).1.arr.take (k.newOrder d).1.item_count = _
      rw [harr, hcnt, arrWrite_take _ _ _ hc]
      rfl
    have hagree : ∀ p ∈ k.held, (k.newOrder d).1.heap p = k.heap p := by
      intro p hp
      rw [hheap]
      have hne : p ≠ k.next := fun he => by subst he; exact hnm hp
      simp [hne]
    refine ⟨⟨?_, ?_, ?_⟩, ?_, ?_⟩
    · rw [harr, hcnt]
      exact arrWrite_length _ _ _ hc
    · rw [hheld]
      simp [List.nodup_append, hnd, hnm]
    · intro q hq
      rw [hheld] at hq
      rw [hnext]
      rcases List.mem_append.1 hq with h1 | h1
      · have := hb _ h1; omega
      · simp at h1; omega
    · intro hp
      show (k.newOrder d).1.total_prep_time = (k.newOrder d).1.sumPrepScratch
      rw [htot, Kitchen.sumPrepScratch, hheld, sumPrepOf_append,
        sumPrepOf_congr (fun p hp2 => by rw [hagree p hp2])]
      have hlast : sumPrepOf (k.newOrder d).1.heap [k.next] = d.prep_time := by
        rw [hheap]; simp [sumPrepOf]
      rw [hlast, hp]
      rfl
    · intro hp
      show (k.newOrder d).1.count_elaborate = ((k.newOrder d).1.countElaborateScratch : Int)
      rw [hce, Kitchen.countElaborateScratch, hheld, countElabOf_append,
        countElabOf_congr (fun p hp2 => hagree p hp2)]
      have hlast : countElabOf (k.newOrder d).1.heap [k.next]
          = (if elaborate d then 1 else 0) := by
        rw [hheap]
        by_cases he : elaborate d <;> simp [countElabOf, he]
      rw [hlast, hp]
      unfold Kitchen.countElaborateScratch
      by_cases he : elaborate d <;> simp [he]
  · have hfail := newOrder_not_add k d (Or.inr (by omega))
    have hheld : (k.newOrder d).1.held = k.held := by rw [hfail]; rfl
    have hagree : ∀ p ∈ k.held, (k.newOrder d).1.heap p = k.heap p := by
      intro p hp
      rw [hfail]
      have hne : p ≠ k.next := fun he => by have := hb _ hp; omega
      simp [hne]
    refine ⟨⟨?_, ?_, ?_⟩, ?_, ?_⟩
    · rw [hfail]; exact hc
    · rw [hheld]; exact hnd
    · intro q hq
      rw [hheld] at hq
      rw [hfail]
      have := hb _ hq
      simp
      omega
    · intro hp
      show _ = _
      rw [Kitchen.sumPrepScratch, hheld,
        sumPrepOf_congr (fun p hp2 => by rw [hagree p hp2])]
      rw [hfail]
      exact hp
    · intro hp
      show _ = _
      rw [Kitchen.countElaborateScratch, hheld,
        countElabOf_congr (fun p hp2 => hagree p hp2)]
      rw [hfail]
      exact hp

/-- Helper: `serveDish` preserves well-formedness and both cache invariants. -/
theorem serveDish_preserves (k : Kitchen) (p : Nat) (hwf : k.WFcore) :
    (k.serveDish p).1.WFcore ∧
    (k.PrepInv → (k.serveDish p).1.PrepInv) ∧
    (k.ElabInv → (k.serveDish p).1.ElabInv) := by
  obtain ⟨hc, hnd, hb⟩ := hwf
  by_cases hsnd : (k.serveDish p).2 = false
  · rw [serveDish_fail k p hsnd]
    exact ⟨⟨hc, hnd, hb⟩, id, id⟩
  · have hsnd2 : (k.serveDish p).2 = true := by
      cases h2 : (k.serveDish p).2
      · exact absurd h2 hsnd
      · rfl
    obtain ⟨h0, fi, hidx⟩ := serveDish_succ_inv k p hsnd2
    obtain ⟨hheap, harr, hcnt, htot, hce, hnext, _⟩ := serveDish_succ k p fi hidx h0
    have hperm := serveDish_held_perm k p fi hc hidx h0
    obtain ⟨hfi1, hfi2⟩ := getIndexOf_spec hidx
    have hpcons : k.held.Perm (p :: k.held.eraseIdx fi) := by
      have h2 := perm_getD_cons_eraseIdx k.held 0 fi hfi1
      rwa [hfi2] at h2
    refine ⟨⟨?_, ?_, ?_⟩, ?_, ?_⟩
    · rw [harr, hcnt, List.length_set]
      omega
    · have h1 : (p :: k.held.eraseIdx fi).Nodup := hpcons.nodup_iff.mp hnd
      exact hperm.nodup_iff.mpr (List.nodup_cons.1 h1).2
    · intro q hq
      rw [hnext]
      apply hb
      have hq2 : q ∈ k.held.eraseIdx fi := hperm.mem_iff.mp hq
      exact hpcons.symm.subset (List.mem_cons_of_mem _ hq2)
    · intro hp2
      show _ = _
      rw [htot, Kitchen.sumPrepScratch, hheap, sumPrepOf_perm k.heap hperm]
      have hsum : sumPrepOf k.heap k.held
          = (k.heap p).prep_time + sumPrepOf k.heap (k.held.eraseIdx fi) := by
        rw [sumPrepOf_perm k.heap hpcons, sumPrepOf_cons]
      rw [Kitchen.PrepInv, Kitchen.sumPrepScratch] at hp2
      omega
    · intro hp2
      show _ = _
      rw [hce, Kitchen.countElaborateScratch, hheap, countElabOf_perm k.heap hperm]
      have hcount : countElabOf k.heap k.held
          = (if elaborate (k.heap p) then 1 else 0) + countElabOf k.heap (k.held.eraseIdx fi) := by
        rw [countElabOf_perm k.heap hpcons, countElabOf_cons]
      rw [Kitchen.ElabInv, Kitchen.countElaborateScratch] at hp2
      by_cases he : elaborate (k.heap p) <;> simp [he] at hcount ⊢ <;> omega

/-- Helper: the sequential accommodation pass never changes a prep time. -/
theorem adjustHeap_prep (request : DietaryRequest) (heap : Nat → Dish) (l : List Nat) :
    ∀ q, ((adjustHeap request heap l) q).prep_time = (heap q).prep_time := by
  induction l generalizing heap with
  | nil => intro q; rfl
  | cons p ps ih =>
      intro q
      rw [adjustHeap, ih]
      by_cases hq : q = p
      · subst hq
        simp [dietary_prep_time_eq]
      · simp [hq]

/-- Helper: `dietaryAdjustment` keeps well-formedness and the prep-sum
invariant (it does not keep the elaborate-count invariant; see C1). -/
theorem dietaryAdjustment_preserves (k : Kitchen) (request : DietaryRequest)
    (hwf : k.WFcore) :
    (k.dietaryAdjustment request).WFcore ∧
    (k.PrepInv → (k.dietaryAdjustment request).PrepInv) := by
  obtain ⟨hc, hnd, hb⟩ := hwf
  refine ⟨⟨hc, hnd, hb⟩, ?_⟩
  intro hp
  show (k.dietaryAdjustment request).total_prep_time
      = sumPrepOf (k.dietaryAdjustment request).heap (k.dietaryAdjustment request).held
  have h1 : (k.dietaryAdjustment request).total_prep_time = k.total_prep_time := rfl
  have h2 : (k.dietaryAdjustment request).held = k.held := rfl
  have h3 : (k.dietaryAdjustment request).heap = adjustHeap request k.heap k.held := rfl
  rw [h1, h2, h3, sumPrepOf_congr (fun p _ => adjustHeap_prep request k.heap k.held p)]
  exact hp

/-- Helper: main loop invariant of `releaseDishesBelowPrepTime`.  The loop
walks the slots of the live prefix frozen at entry; `pre` lists the original
values of the scanned slots, `suf` those of the unscanned slots.  Because
the bag's removal writes only at the found index — which never exceeds the
current slot — the unscanned slots keep their original values, every
below-threshold dish is live with exactly one unscanned occurrence when its
slot is reached, and each `serveDish` call succeeds. -/
theorem releaseLoop_spec (heap0 : Nat → Dish) (t : Int) (num : Nat) (suf : List Nat) :
    ∀ (pre : List Nat) (k : Kitchen) (count : Nat),
      k.heap = heap0 →
      num = pre.length + suf.length →
      k.item_count ≤ k.arr.length →
      k.held.Nodup →
      (∃ rest, k.arr.drop pre.length = suf ++ rest) →
      k.held.Perm (pre.filter (fun p => !decide ((heap0 p).prep_time < t)) ++ suf) →
      (releaseLoop k t num pre.length count).1.heap = heap0 ∧
      (releaseLoop k t num pre.length count).1.next = k.next ∧
      (releaseLoop k t num pre.length count).1.item_count
        ≤ (releaseLoop k t num pre.length count).1.arr.length ∧
      (releaseLoop k t num pre.length count).1.held.Nodup ∧
      (releaseLoop k t num pre.length count).1.held.Perm
        ((pre ++ suf).filter (fun p => !decide ((heap0 p).prep_time < t))) ∧
      (releaseLoop k t num pre.length count).2
        = count + (suf.filter (fun p => decide ((heap0 p).prep_time < t))).length ∧
      (releaseLoop k t num pre.length count).1.total_prep_time
        = k.total_prep_time
          - sumPrepOf heap0 (suf.filter (fun p => decide ((heap0 p).prep_time < t))) := by
  induction suf with
  | nil =>
      intro pre k count hheap hnum hc hnd hdrop hperm
      have hstop : ¬ (pre.length < num) := by
        simp at hnum
        omega
      rw [releaseLoop, if_neg hstop]
      refine ⟨hheap, rfl, hc, hnd, ?_, ?_, ?_⟩
      · simpa using hperm
      · simp
      · simp [sumPrepOf]
  | cons x xs ih =>
      intro pre k count hheap hnum hc hnd hdrop hperm
      obtain ⟨rest, hdrop⟩ := hdrop
      have hnum2 : num = pre.length + xs.length + 1 := by
        simp at hnum
        omega
      have hlt : pre.length < num := by omega
      have hget : k.arr.getD pre.length 0 = x := by
        rw [List.getD_eq_getElem?_getD, ← List.head?_drop, hdrop]
        rfl
      have hdrop1 : k.arr.drop (pre.length + 1) = xs ++ rest := by
        rw [← List.tail_drop, hdrop]
        rfl
      rw [releaseLoop, if_pos hlt]
      dsimp only
      rw [hget, hheap]
      by_cases hP : (heap0 x).prep_time < t
      · rw [if_pos hP]
        have hmem : x ∈ k.held := hperm.symm.subset (by simp)
        have h0 : k.getCurrentSize ≠ 0 := by
          intro h00
          have : k.held = [] := by
            unfold Kitchen.held Kitchen.getCurrentSize at *
            rw [h00]
            rfl
          rw [this] at hmem
          cases hmem
        obtain ⟨fi, hidx⟩ := getIndexOf_isSome_of_mem hmem
        obtain ⟨hheap2, harr2, hcnt2, htot2, _, hnext2, _⟩ := serveDish_succ k x fi hidx h0
        have hperm2 := serveDish_held_perm k x fi hc hidx h0
        obtain ⟨hfi1, hfi2⟩ := getIndexOf_spec hidx
        have hheldlen : k.held.length = k.item_count := by
          simp only [Kitchen.held, List.length_take]
          omega
        have hfile : fi < pre.length + 1 := by
          by_cases hi : pre.length < k.item_count
          · have hgd : k.held.getD pre.length 0 = x := by
              show (k.arr.take k.item_count).getD pre.length 0 = x
              rw [List.getD_eq_getElem?_getD, List.getElem?_take, if_pos hi,
                ← List.getD_eq_getElem?_getD, hget]
            have := getIndexOf_min hidx pre.length (by omega) hgd
            omega
          · omega
        have hpcons : k.held.Perm (x :: k.held.eraseIdx fi) := by
          have h2 := perm_getD_cons_eraseIdx k.held 0 fi hfi1
          rwa [hfi2] at h2
        have herase : (k.held.eraseIdx fi).Perm
            (pre.filter (fun p => !decide ((heap0 p).prep_time < t)) ++ xs) := by
          have hmid : (pre.filter (fun p => !decide ((heap0 p).prep_time < t)) ++ x :: xs).Perm
              (x :: (pre.filter (fun p => !decide ((heap0 p).prep_time < t)) ++ xs)) :=
            List.perm_middle
          exact (hpcons.symm.trans (hperm.trans hmid)).cons_inv
        have hih := ih (pre ++ [x]) (k.serveDish x).1 (count + 1)
          (by rw [hheap2, hheap])
          (by simp; omega)
          (by rw [harr2, hcnt2, List.length_set]; omega)
          (hperm2.nodup_iff.mpr (List.nodup_cons.1 (hpcons.nodup_iff.mp hnd)).2)
          (by
            refine ⟨rest, ?_⟩
            have hlen : (pre ++ [x]).length = pre.length + 1 := by simp
            rw [harr2, hlen, List.drop_set_of_lt _ _ (by omega), hdrop1])
          (by
            have hfx : (pre ++ [x]).filter (fun p => !decide ((heap0 p).prep_time < t))
                = pre.filter (fun p => !decide ((heap0 p).prep_time < t)) := by
              rw [List.filter_append]
              have hone : (List.filter (fun p => !decide ((heap0 p).prep_time < t)) [x]) = [] := by
                simp [hP]
              rw [hone, List.append_nil]
            rw [hfx]
            exact hperm2.trans herase)
        simp only [List.length_append, List.length_cons, List.length_nil] at hih
        obtain ⟨c1, c2, c3, c4, c5, c6, c7⟩ := hih
        refine ⟨c1, c2.trans hnext2, c3, c4, ?_, ?_, ?_⟩
        · have heq : ((pre ++ [x]) ++ xs) = pre ++ x :: xs := by simp
          rwa [heq] at c5
        · rw [c6]
          have : (List.filter (fun p => decide ((heap0 p).prep_time < t)) (x :: xs))
              = x :: List.filter (fun p => decide ((heap0 p).prep_time < t)) xs := by
            simp [hP]
          rw [this]
          simp
          omega
        · rw [c7, htot2, hheap]
          have : (List.filter (fun p => decide ((heap0 p).prep_time < t)) (x :: xs))
              = x :: List.filter (fun p => decide ((heap0 p).prep_time < t)) xs := by
            simp [hP]
          rw [this, sumPrepOf_cons]
          omega
      · rw [if_neg hP]
        have hih := ih (pre ++ [x]) k count
          hheap
          (by simp; omega)
          hc
          hnd
          (by
            refine ⟨rest, ?_⟩
            have hlen : (pre ++ [x]).length = pre.length + 1 := by simp
            rw [hlen, hdrop1])
          (by
            have hfx : (pre ++ [x]).filter (fun p => !decide ((heap0 p).prep_time < t))
                = pre.filter (fun p => !decide ((heap0 p).prep_time < t)) ++ [x] := by
              rw [List.filter_append]
              congr 1
              simp [hP]
            rw [hfx, List.append_assoc, List.singleton_append]
            exact hperm)
        simp only [List.length_append, List.length_cons, List.length_nil] at hih
        obtain ⟨c1, c2, c3, c4, c5, c6, c7⟩ := hih
        refine ⟨c1, c2, c3, c4, ?_, ?_, ?_⟩
        · have heq : ((pre ++ [x]) ++ xs) = pre ++ x :: xs := by simp
          rwa [heq] at c5
        · rw [c6]
          have : (List.filter (fun p => decide ((heap0 p).prep_time < t)) (x :: xs))
              = List.filter (fun p => decide ((heap0 p).prep_time < t)) xs := by
            simp [hP]
          rw [this]
        · rw [c7]
          have : (List.filter (fun p => decide ((heap0 p).prep_time < t)) (x :: xs))
              = List.filter (fun p => decide ((heap0 p).prep_time < t)) xs := by
            simp [hP]
          rw [this]

/-- Helper: prep sums split along a Boolean filter. -/
theorem sumPrepOf_filter_split (heap : Nat → Dish) (P : Nat → Bool) (l : List Nat) :
    sumPrepOf heap l
      = sumPrepOf heap (l.filter P) + sumPrepOf heap (l.filter (fun p => !P p)) := by
  induction l with
  | nil => simp [sumPrepOf]
  | cons y ys ih =>
      by_cases hy : P y <;>
        simp [List.filter_cons, hy, sumPrepOf_cons, ih] <;> ring

/-- Helper: top-level description of `releaseDishesBelowPrepTime`. -/
theorem release_spec (k : Kitchen) (t : Int)
    (hc : k.item_count ≤ k.arr.length) (hnd : k.held.Nodup) :
    (k.releaseDishesBelowPrepTime t).1.heap = k.heap ∧
    (k.releaseDishesBelowPrepTime t).1.next = k.next ∧
    (k.releaseDishesBelowPrepTime t).1.item_count
      ≤ (k.releaseDishesBelowPrepTime t).1.arr.length ∧
    (k.releaseDishesBelowPrepTime t).1.held.Nodup ∧
    (k.releaseDishesBelowPrepTime t).1.held.Perm
      (k.held.filter (fun p => !decide ((k.heap p).prep_time < t))) ∧
    (k.releaseDishesBelowPrepTime t).2
      = (k.held.filter (fun p => decide ((k.heap p).prep_time < t))).length ∧
    (k.releaseDishesBelowPrepTime t).1.total_prep_time
      = k.total_prep_time
        - sumPrepOf k.heap (k.held.filter (fun p => decide ((k.heap p).prep_time < t))) := by
  have hnum : k.getCurrentSize = ([] : List Nat).length + k.held.length := by
    simp only [Kitchen.getCurrentSize, Kitchen.held, List.length_take, List.length_nil]
    omega
  have h := releaseLoop_spec k.heap t k.getCurrentSize k.held [] k 0 rfl hnum hc hnd
    ⟨k.arr.drop k.item_count, by
      show k.arr.drop 0 = _
      rw [List.drop_zero]
      exact (List.take_append_drop _ _).symm⟩
    (by simp)
  simpa [Kitchen.releaseDishesBelowPrepTime] using h

/-- Helper: `releaseDishesBelowPrepTime` preserves well-formedness and the
prep-sum invariant. -/
theorem release_preserves (k : Kitchen) (t : Int) (hwf : k.WFcore) :
    (k.releaseDishesBelowPrepTime t).1.WFcore ∧
    (k.PrepInv → (k.releaseDishesBelowPrepTime t).1.PrepInv) := by
  obtain ⟨hc, hnd, hb⟩ := hwf
  obtain ⟨hheap, hnext, hc2, hnd2, hperm, hcount, htot⟩ := release_spec k t hc hnd
  refine ⟨⟨hc2, hnd2, ?_⟩, ?_⟩
  · intro q hq
    rw [hnext]
    exact hb _ (List.mem_of_mem_filter (hperm.subset hq))
  · intro hp
    show (k.releaseDishesBelowPrepTime t).1.total_prep_time
        = sumPrepOf (k.releaseDishesBelowPrepTime t).1.heap
            (k.releaseDishesBelowPrepTime t).1.held
    rw [htot, hheap, sumPrepOf_perm k.heap hperm]
    rw [Kitchen.PrepInv, Kitchen.sumPrepScratch] at hp
    have hsplit := sumPrepOf_filter_split k.heap
      (fun p => decide ((k.heap p).prep_time < t)) k.held
    omega

/-- Helper: every operation preserves well-formedness and the prep-sum
invariant. -/
theorem step_preserves (k : Kitchen) (op : KOp) (hwf : k.WFcore) :
    (k.step op).WFcore ∧ (k.PrepInv → (k.step op).PrepInv) := by
  cases op with
  | order d => exact ⟨(newOrder_preserves k d hwf).1, (newOrder_preserves k d hwf).2.1⟩
  | serve p => exact ⟨(serveDish_preserves k p hwf).1, (serveDish_preserves k p hwf).2.1⟩
  | adjust request => exact dietaryAdjustment_preserves k request hwf
  | release t => exact release_preserves k t hwf

/-- Helper: order and serve operations also preserve the elaborate-count
invariant. -/
theorem step_preserves_ecount (k : Kitchen) (op : KOp) (hos : op.isOrderServe)
    (hwf : k.WFcore) (he : k.ElabInv) : (k.step op).ElabInv := by
  cases op with
  | order d => exact (newOrder_preserves k d hwf).2.2 he
  | serve p => exact (serveDish_preserves k p hwf).2.2 he
  | adjust request => cases hos
  | release t => cases hos

/-- Helper: runs preserve well-formedness and the prep-sum invariant. -/
theorem run_preserves (ops : List KOp) :
    ∀ k : Kitchen, k.WFcore → k.PrepInv → (k.run ops).WFcore ∧ (k.run ops).PrepInv := by
  induction ops with
  | nil => intro k hwf hp; exact ⟨hwf, hp⟩
  | cons op rest ih =>
      intro k hwf hp
      have h1 := step_preserves k op hwf
      exact ih (k.step op) h1.1 (h1.2 hp)

/-- Helper: order/serve runs also preserve the elaborate-count invariant. -/
theorem run_preserves_ecount (ops : List KOp) :
    ∀ k : Kitchen, (∀ op ∈ ops, op.isOrderServe) → k.WFcore → k.PrepInv → k.ElabInv →
      (k.run ops).ElabInv := by
  induction ops with
  | nil => intro k _ _ _ he; exact he
  | cons op rest ih =>
      intro k hos hwf hp he
      have h1 := step_preserves k op hwf
      exact ih (k.step op) (fun o ho => hos o (List.mem_cons_of_mem _ ho)) h1.1 (h1.2 hp)
        (step_preserves_ecount k op (hos op (List.mem_cons_self _ _)) hwf he)

/-- Helper: the empty kitchen is well-formed with correct caches. -/
theorem empty_invariants :
    Kitchen.empty.WFcore ∧ Kitchen.empty.PrepInv ∧ Kitchen.empty.ElabInv := by
  refine ⟨⟨le_refl 0, ?_, ?_⟩, rfl, rfl⟩
  · exact List.nodup_nil
  · intro p hp
    cases hp

/-- Helper: under the prep-sum invariant the getter equals recomputation. -/
theorem getPrepTimeSum_eq_scratch (k : Kitchen) (hp : k.PrepInv) :
    k.getPrepTimeSum = k.sumPrepScratch := by
  unfold Kitchen.getPrepTimeSum
  split
  · rename_i h0
    have hh : k.held = [] := by
      unfold Kitchen.held
      unfold Kitchen.getCurrentSize at h0
      rw [h0]
      rfl
    simp [Kitchen.sumPrepScratch, hh, sumPrepOf]
  · exact hp

/-- Helper: under the elaborate invariant the getter equals recomputation. -/
theorem elaborateDishCount_eq_scratch (k : Kitchen) (he : k.ElabInv) :
    k.elaborateDishCount = (k.countElaborateScratch : Int) := by
  unfold Kitchen.elaborateDishCount
  split
  · rename_i h0
    rw [Kitchen.ElabInv] at he
    rcases h0 with h0 | h0
    · have hh : k.held = [] := by
        unfold Kitchen.held
        unfold Kitchen.getCurrentSize at h0
        rw [h0]
        rfl
      simp [Kitchen.countElaborateScratch, hh, countElabOf]
    · rw [h0] at he
      omega
  · exact he

/-- Helper: the running `double` accumulation of `calculateAvgPrepTime`
computes the prep-time sum. -/
theorem foldl_add_prep (heap : Nat → Dish) (l : List Nat) :
    ∀ a : Rat, l.foldl (fun acc p => acc + ((heap p).prep_time : Rat)) a
      = a + ((sumPrepOf heap l : Int) : Rat) := by
  induction l with
  | nil =>
      intro a
      simp [sumPrepOf]
  | cons x xs ih =>
      intro a
      rw [List.foldl_cons, ih, sumPrepOf_cons]
      push_cast
      ring

/-- Helper: `cppRound` is a nearest-integer rounding. -/
theorem cppRound_abs (q : Rat) : |((cppRound q : Int) : Rat) - q| ≤ 1 / 2 := by
  unfold cppRound
  split
  · rw [abs_le]
    constructor
    · have h := Int.lt_floor_add_one (q + 1 / 2)
      push_cast at h ⊢
      linarith
    · have h := Int.floor_le (q + 1 / 2)
      push_cast at h ⊢
      linarith
  · rw [abs_le]
    constructor
    · have h := Int.le_ceil (q - 1 / 2)
      push_cast at h ⊢
      linarith
    · have h := Int.ceil_lt_add_one (q - 1 / 2)
      push_cast at h ⊢
      linarith

/-- C5: after every sequence of `newOrder`/`serveDish` calls from the empty
kitchen — each call succeeding or failing — `getPrepTimeSum` equals the
prep-time sum recomputed over the held dishes and `elaborateDishCount`
equals the recomputed count of held dishes with at least 5 ingredients and
at least 60 minutes; moreover a failed order or serve leaves the total and
the counter unchanged. -/
theorem claim_C5_cache_invariants :
    (∀ ops : List KOp, (∀ op ∈ ops, op.isOrderServe) →
      (Kitchen.empty.run ops).getPrepTimeSum = (Kitchen.empty.run ops).sumPrepScratch ∧
      (Kitchen.empty.run ops).elaborateDishCount
        = ((Kitchen.empty.run ops).countElaborateScratch : Int)) ∧
    (∀ (k : Kitchen) (d : Dish), (k.newOrder d).2 = false →
      (k.newOrder d).1.total_prep_time = k.total_prep_time ∧
      (k.newOrder d).1.count_elaborate = k.count_elaborate) ∧
    (∀ (k : Kitchen) (p : Nat), (k.serveDish p).2 = false →
      (k.serveDish p).1.total_prep_time = k.total_prep_time ∧
      (k.serveDish p).1.count_elaborate = k.count_elaborate) := by
  refine ⟨?_, ?_, ?_⟩
  · intro ops hos
    obtain ⟨hwf0, hp0, he0⟩ := empty_invariants
    obtain ⟨hwf, hp⟩ := run_preserves ops Kitchen.empty hwf0 hp0
    have he := run_preserves_ecount ops Kitchen.empty hos hwf0 hp0 he0
    exact ⟨getPrepTimeSum_eq_scratch _ hp, elaborateDishCount_eq_scratch _ he⟩
  · intro k d h
    by_cases hfail : k.next ∈ k.held ∨ 200 ≤ k.item_count
    · rw [newOrder_not_add k d hfail]
      exact ⟨rfl, rfl⟩
    · push_neg at hfail
      obtain ⟨h1, h2⟩ := hfail
      have hs := (newOrder_succ k d h1 (by omega)).1
      rw [hs] at h
      cases h
  · intro k p h
    rw [serveDish_fail k p h]
    exact ⟨rfl, rfl⟩

/-- C5 witness: the theorem applied to a concrete order/order/serve run. -/
theorem claim_C5_cache_invariants_witness :
    (Kitchen.empty.run [KOp.order fixApElab, KOp.order fixQuick, KOp.serve 0]).getPrepTimeSum
      = (Kitchen.empty.run [KOp.order fixApElab, KOp.order fixQuick,
          KOp.serve 0]).sumPrepScratch ∧
    (Kitchen.empty.run [KOp.order fixApElab, KOp.order fixQuick,
        KOp.serve 0]).elaborateDishCount
      = ((Kitchen.empty.run [KOp.order fixApElab, KOp.order fixQuick,
          KOp.serve 0]).countElaborateScratch : Int) :=
  claim_C5_cache_invariants.1 [KOp.order fixApElab, KOp.order fixQuick, KOp.serve 0]
    (by
      intro op hop
      simp only [List.mem_cons, List.not_mem_nil, or_false] at hop
      rcases hop with rfl | rfl | rfl <;> trivial)

/-- C1 (amended): over every operation sequence from the empty kitchen —
dietary adjustments and threshold releases included — `getPrepTimeSum`
always equals the prep-time sum recomputed from scratch; the original
claim's other half, that `elaborateDishCount` also always matches
recomputation, fails after `dietaryAdjustment` (see the counterexample). -/
theorem claim_C1_prep_invariant (ops : List KOp) :
    (Kitchen.empty.run ops).getPrepTimeSum = (Kitchen.empty.run ops).sumPrepScratch := by
  obtain ⟨hwf0, hp0, _⟩ := empty_invariants
  obtain ⟨hwf, hp⟩ := run_preserves ops Kitchen.empty hwf0 hp0
  exact getPrepTimeSum_eq_scratch _ hp

/-- Helper: the removal loop started at the append boundary filters the
suffix. -/
theorem eraseScan_spec_aux (bad : List String) (suf : List String) :
    ∀ pre : List String,
      eraseScan bad (pre ++ suf) pre.length
        = pre ++ suf.filter (fun x => !decide (x ∈ bad)) := by
  induction suf with
  | nil =>
      intro pre
      rw [eraseScan]
      simp
  | cons x xs ih =>
      intro pre
      have hlt : pre.length < (pre ++ x :: xs).length := by simp
      rw [eraseScan, dif_pos hlt, get_append_cons pre x xs hlt]
      by_cases hx : x ∈ bad
      · rw [if_pos hx, eraseIdx_append_cons, ih]
        simp [hx]
      · rw [if_neg hx]
        have hsplit : pre ++ x :: xs = (pre ++ [x]) ++ xs := by simp
        have hlen : pre.length + 1 = (pre ++ [x]).length := by simp
        rw [hsplit, hlen, ih]
        simp [hx]

/-- Helper: the source's removal loop deletes exactly the listed tokens. -/
theorem eraseScan_eq_filter (bad ing : List String) :
    eraseScan bad ing 0 = ing.filter (fun x => !decide (x ∈ bad)) := by
  simpa using eraseScan_spec_aux bad ing []

/-- C1 counterexample: order one elaborate appetizer (5 ingredients, among
them "Wheat", 60 minutes prep), then apply a gluten-free adjustment: the
dish drops to 4 ingredients, yet `elaborateDishCount` still reports the
cached 1 while recomputation over the held dishes gives 0. -/
theorem claim_C1_cache_counterexample :
    (Kitchen.run Kitchen.empty [KOp.order fixApElab, KOp.adjust reqGF]).elaborateDishCount = 1 ∧
    (Kitchen.run Kitchen.empty [KOp.order fixApElab, KOp.adjust reqGF]).countElaborateScratch
      = 0 := by
  constructor
  · decide
  · have hheap0 : (Kitchen.run Kitchen.empty [KOp.order fixApElab, KOp.adjust reqGF]).heap 0
        = dietaryAccommodations reqGF fixApElab := rfl
    have h1 : dietaryAccommodations reqGF fixApElab
        = { fixApElab with
              ingredients := eraseScan glutenIngredients fixApElab.ingredients 0,
              variant := .appetizer .BUFFET 0 false } := rfl
    have hing : (dietaryAccommodations reqGF fixApElab).ingredients
        = ["Cheese", "Olives", "Ham", "Figs"] := by
      rw [h1]
      show eraseScan glutenIngredients fixApElab.ingredients 0 = _
      rw [eraseScan_eq_filter]
      rfl
    have hel : elaborate ((Kitchen.run Kitchen.empty
        [KOp.order fixApElab, KOp.adjust reqGF]).heap 0) = false := by
      rw [hheap0]
      unfold elaborate
      rw [hing]
      simp
    have hres : (Kitchen.run Kitchen.empty
          [KOp.order fixApElab, KOp.adjust reqGF]).countElaborateScratch
        = (List.filter (fun p => elaborate ((Kitchen.run Kitchen.empty
            [KOp.order fixApElab, KOp.adjust reqGF]).heap p)) [0]).length := rfl
    rw [hres, List.filter_cons]
    simp [hel]

/-- C3: for every well-formed kitchen whose prep-sum cache is correct,
`releaseDishesBelowPrepTime t` removes exactly the held dishes with prep
time strictly below `t` (none are skipped despite the in-place index
shifting), returns exactly the number removed, and leaves `getPrepTimeSum`
equal to the prior sum minus the removed dishes' prep times. -/
theorem claim_C3_release (k : Kitchen) (t : Int)
    (hc : k.item_count ≤ k.arr.length) (hnd : k.held.Nodup) (hp : k.PrepInv) :
    (k.releaseDishesBelowPrepTime t).1.held.Perm
      (k.held.filter (fun p => !decide ((k.heap p).prep_time < t))) ∧
    (∀ q ∈ (k.releaseDishesBelowPrepTime t).1.held,
      ¬ ((k.releaseDishesBelowPrepTime t).1.heap q).prep_time < t) ∧
    (k.releaseDishesBelowPrepTime t).2
      = (k.held.filter (fun p => decide ((k.heap p).prep_time < t))).length ∧
    (k.releaseDishesBelowPrepTime t).1.getPrepTimeSum
      = k.getPrepTimeSum
        - sumPrepOf k.heap (k.held.filter (fun p => decide ((k.heap p).prep_time < t))) := by
  obtain ⟨hheap, hnext, hc2, hnd2, hperm, hcount, htot⟩ := release_spec k t hc hnd
  refine ⟨hperm, ?_, hcount, ?_⟩
  · intro q hq
    rw [hheap]
    have hq2 := hperm.subset hq
    have := List.of_mem_filter hq2
    simpa using this
  · have hp2 : (k.releaseDishesBelowPrepTime t).1.PrepInv := by
      show (k.releaseDishesBelowPrepTime t).1.total_prep_time
          = sumPrepOf (k.releaseDishesBelowPrepTime t).1.heap
              (k.releaseDishesBelowPrepTime t).1.held
      rw [htot, hheap, sumPrepOf_perm k.heap hperm]
      rw [Kitchen.PrepInv, Kitchen.sumPrepScratch] at hp
      have hsplit := sumPrepOf_filter_split k.heap
        (fun p => decide ((k.heap p).prep_time < t)) k.held
      omega
    rw [getPrepTimeSum_eq_scratch _ hp2, getPrepTimeSum_eq_scratch _ hp]
    show sumPrepOf (k.releaseDishesBelowPrepTime t).1.heap
        (k.releaseDishesBelowPrepTime t).1.held = _
    rw [hheap, sumPrepOf_perm k.heap hperm]
    show _ = sumPrepOf k.heap k.held - _
    have hsplit := sumPrepOf_filter_split k.heap
      (fun p => decide ((k.heap p).prep_time < t)) k.held
    omega

/-- C3 witness: the theorem applied to a concrete two-dish kitchen (prep
times 60 and 10) with threshold 30: the quick dish is removed, one removal
is reported, and the sum drops from 70 to 60. -/
theorem claim_C3_release_witness :
    (fixK.releaseDishesBelowPrepTime 30).2
      = (fixK.held.filter (fun p => decide ((fixK.heap p).prep_time < 30))).length ∧
    (fixK.releaseDishesBelowPrepTime 30).1.getPrepTimeSum
      = fixK.getPrepTimeSum
        - sumPrepOf fixK.heap
            (fixK.held.filter (fun p => decide ((fixK.heap p).prep_time < 30))) :=
  ⟨(claim_C3_release fixK 30 (by decide) (by decide)
      (by show fixK.total_prep_time = fixK.sumPrepScratch; decide)).2.2.1,
   (claim_C3_release fixK 30 (by decide) (by decide)
      (by show fixK.total_prep_time = fixK.sumPrepScratch; decide)).2.2.2⟩

/-- C6: `calculateElaboratePercentage` returns 0 when the kitchen is empty
or the elaborate counter is 0, and otherwise
`round(count × 10000 / size) / 100` — an exact two-decimal value within
1/200 of the true percentage; with 7 elaborate of 13 held dishes it returns
53.85. -/
theorem claim_C6_percentage (k : Kitchen) :
    (k.getCurrentSize = 0 → k.calculateElaboratePercentage = 0) ∧
    (k.count_elaborate = 0 → k.calculateElaboratePercentage = 0) ∧
    (k.getCurrentSize ≠ 0 → k.count_elaborate ≠ 0 →
      k.calculateElaboratePercentage
        = ((cppRound ((k.count_elaborate : Rat) / (k.getCurrentSize : Rat) * 10000) : Int)
            : Rat) / 100 ∧
      (∃ z : Int, 100 * k.calculateElaboratePercentage = (z : Rat)) ∧
      |k.calculateElaboratePercentage
          - (k.count_elaborate : Rat) / (k.getCurrentSize : Rat) * 100| ≤ 1 / 200) ∧
    (k.getCurrentSize = 13 → k.count_elaborate = 7 →
      k.calculateElaboratePercentage = 5385 / 100) := by
  refine ⟨?_, ?_, ?_, ?_⟩
  · intro h
    unfold Kitchen.calculateElaboratePercentage
    simp [h]
  · intro h
    unfold Kitchen.calculateElaboratePercentage
    simp [h]
  · intro h1 h2
    unfold Kitchen.calculateElaboratePercentage
    rw [if_neg (by push_neg; exact ⟨h1, h2⟩)]
    refine ⟨rfl, ⟨cppRound ((k.count_elaborate : Rat) / (k.getCurrentSize : Rat) * 10000),
      by field_simp⟩, ?_⟩
    have hb := cppRound_abs ((k.count_elaborate : Rat) / (k.getCurrentSize : Rat) * 10000)
    have hq : (k.count_elaborate : Rat) / (k.getCurrentSize : Rat) * 100
        = ((k.count_elaborate : Rat) / (k.getCurrentSize : Rat) * 10000) / 100 := by
      ring
    rw [hq]
    have hd : ((cppRound ((k.count_elaborate : Rat) / (k.getCurrentSize : Rat) * 10000)
          : Int) : Rat) / 100
          - ((k.count_elaborate : Rat) / (k.getCurrentSize : Rat) * 10000) / 100
        = (((cppRound ((k.count_elaborate : Rat) / (k.getCurrentSize : Rat) * 10000)
            : Int) : Rat)
            - (k.count_elaborate : Rat) / (k.getCurrentSize : Rat) * 10000) / 100 := by
      ring
    rw [hd, abs_div]
    rw [abs_of_nonneg (by norm_num : (0 : Rat) ≤ 100)]
    linarith
  · intro h13 h7
    unfold Kitchen.calculateElaboratePercentage
    rw [h13, h7]
    rw [if_neg (by norm_num)]
    have hy : ((7 : Int) : Rat) / ((13 : Nat) : Rat) * 10000 = 70000 / 13 := by
      norm_num
    rw [hy]
    have hf : cppRound ((70000 : Rat) / 13) = 5385 := by
      unfold cppRound
      rw [if_pos (by norm_num)]
      rw [Int.floor_eq_iff]
      constructor <;> norm_num
    rw [hf]
    norm_num

/-- C6 witness: the theorem applied to the concrete 13-dish kitchen with 7
elaborate dishes. -/
theorem claim_C6_percentage_witness :
    fixK13.calculateElaboratePercentage = 5385 / 100 :=
  (claim_C6_percentage fixK13).2.2.2 rfl rfl

/-- C7: `calculateAvgPrepTime` returns 0 on an empty kitchen, and otherwise
the prep-time sum divided by the dish count rounded to the nearest integer
— within 1/2 of the true average, and equal to the half-up rounding
`⌊sum/count + 1/2⌋` whenever the sum is nonnegative (ties resolve
consistently, half away from zero). -/
theorem claim_C7_average (k : Kitchen) :
    (k.getCurrentSize = 0 → k.calculateAvgPrepTime = 0) ∧
    (k.getCurrentSize ≠ 0 →
      |((k.calculateAvgPrepTime : Int) : Rat)
          - (k.sumPrepScratch : Rat) / (k.getCurrentSize : Rat)| ≤ 1 / 2) ∧
    (k.getCurrentSize ≠ 0 → 0 ≤ k.sumPrepScratch →
      k.calculateAvgPrepTime
        = ⌊(k.sumPrepScratch : Rat) / (k.getCurrentSize : Rat) + 1 / 2⌋) := by
  have havg : k.getCurrentSize ≠ 0 → k.calculateAvgPrepTime
      = cppRound ((k.sumPrepScratch : Rat) / (k.getCurrentSize : Rat)) := by
    intro h
    unfold Kitchen.calculateAvgPrepTime
    rw [if_neg h, foldl_add_prep, zero_add]
    rfl
  refine ⟨?_, ?_, ?_⟩
  · intro h
    unfold Kitchen.calculateAvgPrepTime
    rw [if_pos h]
  · intro h
    rw [havg h]
    exact cppRound_abs _
  · intro h hs
    rw [havg h]
    have hq : 0 ≤ (k.sumPrepScratch : Rat) / (k.getCurrentSize : Rat) := by
      apply div_nonneg
      · exact_mod_cast hs
      · positivity
    unfold cppRound
    rw [if_pos hq]

/-- C7 witness: the theorem applied to the concrete two-dish kitchen with
prep times 60 and 10: the average 35 is the half-up rounding of 70/2. -/
theorem claim_C7_average_witness :
    fixK.calculateAvgPrepTime
      = ⌊(fixK.sumPrepScratch : Rat) / (fixK.getCurrentSize : Rat) + 1 / 2⌋ :=
  (claim_C7_average fixK).2.2 (by decide) (by decide)

end Bistro
